import Mathlib

/-!
Verification of the classical arithmetic shell of Shor's algorithm from
`Algorithms/ShorMath.ipynb`.  The Python functions `is_prime`, `find_power_k`,
`order_finding` and `shor_algorithm` are embedded as executable Lean
definitions over `ℕ` (Python's arbitrary-precision integers).

Conventions of the embedding:
* Python `for`/`while` loops become structurally recursive functions with an
  explicit fuel argument.  A fuel of `N` is always more than the number of
  iterations any terminating run performs, and the potentially diverging
  `while` loop of `order_finding` is additionally exposed as the partial
  function `order_finding_fuel`, which returns `none` exactly on the runs
  that would still be spinning after the given number of loop tests.
* The source computes `int(log(N)/log(3))` and `int(N**(1/k))` in IEEE-754
  double precision via the platform libm; the embedding replaces them by
  the exact integer idealizations `log3 N = ⌊log_3 N⌋` and
  `kthRootFloor N k = ⌊N^(1/k)⌋`.  CPython's rounded values can differ from
  these (e.g. `int(125**(1/3)) == 4`, `int(log(243)/log(3)) == 4`), so only
  properties that are insensitive to the computed root and bound — such as
  the exactness of a passing `p**k == N` check — transfer to the program;
  properties that depend on *which* exponents are searched or detected do
  not, and are not settled here.
* The `randint(2, N-1)` draws of `shor_algorithm` are modelled by an
  explicit list of base choices: the retry loop consumes one entry per
  iteration and `shor_algorithm N rands` returns `none` if the list is
  exhausted before a `return` statement fires.
-/

/-- Loop of `is_prime`: Python `for i in range(3, N, 2)` with the
`i*i > N` break and the `N % i == 0` early `return False`.  The fuel
argument only bounds the number of loop tests; `is_prime` passes `N`,
which exceeds the iteration count of every run. -/
def isPrimeGo (N : ℕ) : ℕ → ℕ → Bool
  | _, 0 => true
  | i, fuel + 1 =>
    if N ≤ i then true
    else if N < i * i then true
    else if N % i = 0 then false
    else isPrimeGo N (i + 2) fuel

/-- Python `is_prime(N)`: trial division by odd candidates up to `√N`. -/
def is_prime (N : ℕ) : Bool :=
  if N = 2 then true
  else if N % 2 = 0 ∨ N ≤ 1 then false
  else isPrimeGo N 3 N

/-- Climb from `p` while `(p+1)^k ≤ N`; with enough fuel this reaches the
integer part of the real `k`-th root of `N`. -/
def kthRootGo (N k : ℕ) : ℕ → ℕ → ℕ
  | p, 0 => p
  | p, fuel + 1 => if (p + 1) ^ k ≤ N then kthRootGo N k (p + 1) fuel else p

/-- Exact-arithmetic idealization of Python's `int(N**(1/k))`: the floor of
the real `k`-th root of `N`.  CPython evaluates `N**(1/k)` as a double and
can round below the exact root (`int(125**(1/3)) == 4`, similarly for
`343` and `3375`), making the program's `p**k == N` check miss genuine
powers that this exact version detects. -/
def kthRootFloor (N k : ℕ) : ℕ := kthRootGo N k 0 N

/-- Exact-arithmetic idealization of Python's `int(log(N)/log(3))`:
`⌊log_3 N⌋` by repeated division (fuel `N` bounds the division chain).
CPython's float quotient can land on either side of the exact floor
(`int(log(243)/log(3)) == 4` though `⌊log_3 243⌋ = 5`, and at
`N = 3^33 - 1` the nearest double to the ratio is `33.0` though
`⌊log_3 N⌋ = 32`), so the program's searched range can differ from the
exact bound. -/
def logGo3 : ℕ → ℕ → ℕ
  | 0, _ => 0
  | fuel + 1, n => if 3 ≤ n then logGo3 fuel (n / 3) + 1 else 0

/-- The `upper_bound` of `find_power_k`, idealized as the exact `⌊log_3 N⌋`. -/
def log3 (N : ℕ) : ℕ := logGo3 N N

/-- Loop of `find_power_k`: Python `for k in range(2, upper_bound + 1)`
returning the first `k` whose root check passes, else `1`. -/
def findPowerGo (N : ℕ) : ℕ → ℕ → ℕ
  | _, 0 => 1
  | k, rem + 1 => if (kthRootFloor N k) ^ k = N then k else findPowerGo N (k + 1) rem

/-- Python `find_power_k(N)` — the first `k` in
`range(2, int(log(N)/log(3)) + 1)` with `int(N**(1/k)) ** k == N`, or `1`
if the loop finds none — with the float root and bound replaced by their
exact idealizations `kthRootFloor` and `log3`.  The program agrees wherever
the doubles round to the exact values, but its float root check can return
`1` on perfect powers this exact version detects (`N = 125, 243, 3375`). -/
def find_power_k (N : ℕ) : ℕ := findPowerGo N 2 (log3 N - 1)

/-- Loop of `order_finding`: Python `while a_i != 1: i += 1; a_i = (a_i * a) % N`,
returning `i` when the test `a_i == 1` first succeeds, or `none` if it has not
succeeded within `fuel` tests. -/
def orderGo (a N : ℕ) : ℕ → ℕ → ℕ → Option ℕ
  | 0, _, _ => none
  | fuel + 1, i, ai => if ai = 1 then some i else orderGo a N fuel (i + 1) (ai * a % N)

/-- Python `order_finding(a, N)` run for at most `fuel` loop tests, starting
from `i = 1`, `a_i = a % N`; `none` means the `while` loop is still spinning. -/
def order_finding_fuel (a N fuel : ℕ) : Option ℕ := orderGo a N fuel 1 (a % N)

/-- Python `order_finding(a, N)` on the inputs where the loop terminates:
the least multiplicative order is below `N`, so fuel `N` always suffices;
on diverging inputs (where Python would hang) this total version yields `0`. -/
def order_finding (a N : ℕ) : ℕ := (order_finding_fuel a N N).getD 0

/-- One iteration of the `while True` retry loop of `shor_algorithm` for a
drawn base `a`: `some (P, Q)` when the iteration executes a `return`,
`none` when it falls through to the next `continue`/draw.  The Python
locals `r = order_finding(a, N)` and `P = gcd(a**(r//2) - 1, N)` are
written out in place; the subtraction is computed in `ℤ`, as in Python. -/
def shorStep (N a : ℕ) : Option (ℕ × ℕ) :=
  if Nat.gcd a N ≠ 1 then some (Nat.gcd a N, N / Nat.gcd a N)
  else if order_finding a N % 2 = 0 then none
  else if Int.gcd ((a : ℤ) ^ (order_finding a N / 2) - 1) (N : ℤ) ≠ 1 then
    some (Int.gcd ((a : ℤ) ^ (order_finding a N / 2) - 1) (N : ℤ),
      N / Int.gcd ((a : ℤ) ^ (order_finding a N / 2) - 1) (N : ℤ))
  else none

/-- The retry loop of `shor_algorithm`, consuming one random base per
iteration; `none` when the supplied draws are exhausted without a return. -/
def shorLoop (N : ℕ) : List ℕ → Option (ℕ × ℕ)
  | [] => none
  | a :: rest =>
    match shorStep N a with
    | some pq => some pq
    | none => shorLoop N rest

/-- Python `shor_algorithm(N)` with the stream of `randint(2, N-1)` draws
made explicit as the list `rands`. -/
def shor_algorithm (N : ℕ) (rands : List ℕ) : Option (ℕ × ℕ) :=
  if N % 2 = 0 then some (N / 2, 2)
  else if is_prime N then some (N, 1)
  else if 1 < find_power_k N then
    some (kthRootFloor N (find_power_k N), N / kthRootFloor N (find_power_k N))
  else shorLoop N rands

/-- The bases in `randint`'s range `[2, N-1]` on which a retry-loop
iteration falls through without returning. -/
def shorFail (N : ℕ) : Finset ℕ := (Finset.Icc 2 (N - 1)).filter fun a => shorStep N a = none

/-! ### The search loop of `find_power_k` -/

/-- Dichotomy for the loop of `find_power_k`: it either returns `1` with
every tested exponent failing the root check, or it returns the first
exponent in its range that passes. -/
theorem findPowerGo_cases (N : ℕ) :
    ∀ (rem k : ℕ), 2 ≤ k →
      (findPowerGo N k rem = 1 ∧
        ∀ j, k ≤ j → j < k + rem → (kthRootFloor N j) ^ j ≠ N)
      ∨ (k ≤ findPowerGo N k rem ∧ findPowerGo N k rem < k + rem ∧
          (kthRootFloor N (findPowerGo N k rem)) ^ (findPowerGo N k rem) = N ∧
          ∀ j, k ≤ j → j < findPowerGo N k rem → (kthRootFloor N j) ^ j ≠ N) := by
  intro rem
  induction rem with
  | zero =>
    intro k _
    left
    exact ⟨rfl, fun j h1 h2 => by omega⟩
  | succ rem ih =>
    intro k hk
    by_cases hc : (kthRootFloor N k) ^ k = N
    · right
      rw [findPowerGo, if_pos hc]
      exact ⟨le_rfl, by omega, hc, fun j h1 h2 => by omega⟩
    · rw [findPowerGo, if_neg hc]
      rcases ih (k + 1) (by omega) with ⟨h1, h2⟩ | ⟨h1, h2, h3, h4⟩
      · left
        refine ⟨h1, fun j hj1 hj2 => ?_⟩
        rcases Nat.eq_or_lt_of_le hj1 with rfl | hj3
        · exact hc
        · exact h2 j (by omega) (by omega)
      · right
        refine ⟨by omega, by omega, h3, fun j hj1 hj2 => ?_⟩
        rcases Nat.eq_or_lt_of_le hj1 with rfl | hj3
        · exact hc
        · exact h4 j (by omega) hj2

/-- When `find_power_k` returns an exponent greater than one, that exponent
is at least 2, lies in the searched range, its root check passed, and it is
the first exponent in the range that passes. -/
theorem find_power_k_spec (N : ℕ) (h : find_power_k N ≠ 1) :
    2 ≤ find_power_k N ∧ find_power_k N ≤ log3 N ∧
      (kthRootFloor N (find_power_k N)) ^ (find_power_k N) = N ∧
      ∀ j, 2 ≤ j → j < find_power_k N → (kthRootFloor N j) ^ j ≠ N := by
  rw [find_power_k] at h ⊢
  rcases findPowerGo_cases N (log3 N - 1) 2 le_rfl with ⟨h1, _⟩ | ⟨h1, h2, h3, h4⟩
  · exact absurd h1 h
  · exact ⟨h1, by omega, h3, h4⟩

/-! ### Correctness of `is_prime` -/

/-- The trial-division loop of `is_prime` on odd `N ≥ 3`, started at an odd
candidate `i ≥ 3` with enough fuel, returns `true` exactly when no candidate
from `i` on with square at most `N` divides `N`. -/
theorem isPrimeGo_eq_true_iff (N : ℕ) (hodd : N % 2 = 1) (hN3 : 3 ≤ N) :
    ∀ (fuel i : ℕ), i % 2 = 1 → 3 ≤ i → N ≤ i + fuel →
      (isPrimeGo N i fuel = true ↔ ∀ j, i ≤ j → j * j ≤ N → ¬ j ∣ N) := by
  have hbig : ∀ i j : ℕ, N ≤ i → i ≤ j → j * j ≤ N → False := by
    intro i j h1 h2 h3
    have hNj : N ≤ j := by omega
    have h4 : N * N ≤ j * j := Nat.mul_le_mul hNj hNj
    have h5 : N * N ≤ N * 1 := by omega
    have := Nat.le_of_mul_le_mul_left h5 (by omega : 0 < N)
    omega
  intro fuel
  induction fuel with
  | zero =>
    intro i hi2 hi3 hle
    simp only [isPrimeGo]
    constructor
    · intro _ j hij hjj _
      exact absurd hjj fun h => hbig i j (by omega) hij h
    · intro _; trivial
  | succ fuel ih =>
    intro i hi2 hi3 hle
    rw [isPrimeGo]
    split
    · constructor
      · intro _ j hij hjj _
        have hNi : N ≤ i := by assumption
        exact absurd hjj fun h => hbig i j hNi hij h
      · intro _; rfl
    · split
      · constructor
        · intro _ j hij hjj _
          have h1 : ¬ N ≤ i := by assumption
          have h2 : N < i * i := by assumption
          have h3 : i * i ≤ j * j := Nat.mul_le_mul hij hij
          omega
        · intro _; rfl
      · split
        · constructor
          · intro hfalse; cases hfalse
          · intro hall
            exfalso
            have hmod : N % i = 0 := by assumption
            exact hall i le_rfl (by omega) (Nat.dvd_of_mod_eq_zero hmod)
        · have hrec := ih (i + 2) (by omega) (by omega) (by omega)
          rw [hrec]
          constructor
          · intro hall j hij hjj hdvd
            have hji : j ≠ i := by
              rintro rfl
              have hmod : ¬ N % j = 0 := by assumption
              rcases hdvd with ⟨c, rfl⟩
              exact hmod (Nat.mul_mod_right j c)
            have hji1 : j ≠ i + 1 := by
              rintro rfl
              have h2j : 2 ∣ (i + 1) := Nat.dvd_of_mod_eq_zero (by omega)
              have h2N : 2 ∣ N := dvd_trans h2j hdvd
              rcases h2N with ⟨c, rfl⟩
              omega
            exact hall j (by omega) hjj hdvd
          · intro hall j hij hjj
            exact hall j (by omega) hjj

/-- `is_prime` agrees with unrestricted trial division. -/
theorem is_prime_eq_true_iff (N : ℕ) :
    is_prime N = true ↔ 2 ≤ N ∧ ∀ d, 1 < d → d < N → ¬ d ∣ N := by
  by_cases h2 : N = 2
  · subst h2
    simp only [is_prime, if_pos rfl]
    exact ⟨fun _ => ⟨le_rfl, fun d h1 h2 => by omega⟩, fun _ => rfl⟩
  · by_cases heasy : N % 2 = 0 ∨ N ≤ 1
    · rw [is_prime, if_neg h2, if_pos heasy]
      constructor
      · intro hfalse; cases hfalse
      · rintro ⟨hN2, hall⟩
        exfalso
        rcases heasy with heven | hsmall
        · exact hall 2 (by omega) (by omega) (Nat.dvd_of_mod_eq_zero heven)
        · omega
    · push_neg at heasy
      obtain ⟨hodd, hN1⟩ := heasy
      have hoddN : N % 2 = 1 := by omega
      have hN3 : 3 ≤ N := by omega
      rw [is_prime, if_neg h2, if_neg (by push_neg; exact ⟨hodd, by omega⟩)]
      rw [isPrimeGo_eq_true_iff N hoddN hN3 N 3 rfl le_rfl (by omega)]
      constructor
      · intro hall
        refine ⟨by omega, fun d hd1 hdN hdvd => ?_⟩
        have hdpos : 0 < d := by omega
        have he : d * (N / d) = N := Nat.mul_div_cancel' hdvd
        set e := N / d with hedef
        have hedvd : e ∣ N := ⟨d, by rw [← he]; ring⟩
        have he1 : 1 < e := by
          rcases Nat.lt_or_ge e 2 with h | h
          · interval_cases e <;> omega
          · omega
        set m := min d e with hmdef
        have hmd : m ∣ N := by
          rcases Nat.le_total d e with h | h
          · rw [hmdef, min_eq_left h]; exact hdvd
          · rw [hmdef, min_eq_right h]; exact hedvd
        have hmm : m * m ≤ N := by
          calc m * m ≤ d * e := Nat.mul_le_mul (min_le_left d e) (min_le_right d e)
          _ = N := he
        have hm1 : 1 < m := lt_min hd1 he1
        have hmodd : m % 2 = 1 := by
          rcases Nat.lt_or_ge (m % 2) 1 with h | h
          · exfalso
            have h2m : 2 ∣ m := Nat.dvd_of_mod_eq_zero (by omega)
            rcases dvd_trans h2m hmd with ⟨c, hc⟩
            omega
          · omega
        exact hall m (by omega) hmm hmd
      · rintro ⟨_, hall⟩ j hj3 hjj hdvd
        have hjN : j ≤ N := Nat.le_of_dvd (by omega) hdvd
        have hjne : j ≠ N := by
          rintro rfl
          have h4 : 3 * j ≤ j * j := Nat.mul_le_mul_right j hj3
          omega
        exact hall j (by omega) (by omega) hdvd

/-- Bridge between the embedded `is_prime` and Mathlib's primality. -/
theorem is_prime_iff_prime (N : ℕ) : is_prime N = true ↔ Nat.Prime N := by
  rw [is_prime_eq_true_iff, Nat.prime_def_lt]
  constructor
  · rintro ⟨h2, hall⟩
    refine ⟨h2, fun m hmN hdvd => ?_⟩
    rcases Nat.lt_or_ge m 2 with h | h
    · interval_cases m
      · rcases hdvd with ⟨c, hc⟩; omega
      · rfl
    · exact absurd hdvd (hall m (by omega) hmN)
  · rintro ⟨h2, hall⟩
    refine ⟨h2, fun d hd1 hdN hdvd => ?_⟩
    have := hall d hdN hdvd
    omega

/-! ### The `while` loop of `order_finding` -/

/-- Soundness of the loop: when started at step `i` with the loop variable
holding `a^i % N` it can only return the first index `r ≥ i` with
`a^r % N = 1`. -/
theorem orderGo_sound (a N : ℕ) :
    ∀ (fuel i r : ℕ), orderGo a N fuel i (a ^ i % N) = some r →
      i ≤ r ∧ a ^ r % N = 1 ∧ ∀ j, i ≤ j → j < r → a ^ j % N ≠ 1 := by
  intro fuel
  induction fuel with
  | zero => intro i r h; cases h
  | succ fuel ih =>
    intro i r h
    rw [orderGo] at h
    split at h
    · have hr : i = r := by injection h
      subst hr
      exact ⟨le_rfl, by assumption, fun j h1 h2 => by omega⟩
    · have hupd : a ^ i % N * a % N = a ^ (i + 1) % N := by
        rw [Nat.mod_mul_mod, ← pow_succ]
      rw [hupd] at h
      obtain ⟨h1, h2, h3⟩ := ih (i + 1) r h
      refine ⟨by omega, h2, fun j hj1 hj2 => ?_⟩
      rcases Nat.eq_or_lt_of_le hj1 with rfl | hj3
      · assumption
      · exact h3 j (by omega) hj2

/-- Completeness of the loop: with fuel covering the distance to the first
index `r ≥ i` with `a^r % N = 1`, the loop returns exactly `r`. -/
theorem orderGo_complete (a N : ℕ) :
    ∀ (fuel i r : ℕ), i ≤ r → a ^ r % N = 1 →
      (∀ j, i ≤ j → j < r → a ^ j % N ≠ 1) → r < i + fuel →
      orderGo a N fuel i (a ^ i % N) = some r := by
  intro fuel
  induction fuel with
  | zero => intro i r h1 _ _ h4; omega
  | succ fuel ih =>
    intro i r h1 h2 h3 h4
    rw [orderGo]
    by_cases hc : a ^ i % N = 1
    · rw [if_pos hc]
      have hir : i = r := by
        by_contra hne
        exact h3 i le_rfl (by omega) hc
      rw [hir]
    · rw [if_neg hc]
      have hir : i < r := by
        rcases Nat.eq_or_lt_of_le h1 with rfl | h
        · exact absurd h2 hc
        · exact h
      have hupd : a ^ i % N * a % N = a ^ (i + 1) % N := by
        rw [Nat.mod_mul_mod, ← pow_succ]
      rw [hupd]
      exact ih (i + 1) r (by omega) h2 (fun j hj1 hj2 => h3 j (by omega) hj2) (by omega)

theorem order_finding_fuel_sound (a N fuel r : ℕ)
    (h : order_finding_fuel a N fuel = some r) :
    1 ≤ r ∧ a ^ r % N = 1 ∧ ∀ j, 1 ≤ j → j < r → a ^ j % N ≠ 1 := by
  rw [order_finding_fuel, show a % N = a ^ 1 % N by rw [pow_one]] at h
  exact orderGo_sound a N fuel 1 r h

theorem order_finding_fuel_complete (a N fuel r : ℕ) (h1 : 1 ≤ r) (h2 : a ^ r % N = 1)
    (h3 : ∀ j, 1 ≤ j → j < r → a ^ j % N ≠ 1) (h4 : r ≤ fuel) :
    order_finding_fuel a N fuel = some r := by
  rw [order_finding_fuel, show a % N = a ^ 1 % N by rw [pow_one]]
  exact orderGo_complete a N fuel 1 r h1 h2 h3 (by omega)

/-- Euler's theorem gives a positive exponent with `a^r % N = 1` whenever
`a` is coprime to `N > 1`, so the order-finding loop has something to hit. -/
theorem exists_order (a N : ℕ) (hN : 1 < N) (h : Nat.gcd a N = 1) :
    ∃ r, 0 < r ∧ a ^ r % N = 1 := by
  have hco : Nat.Coprime a N := h
  have htot := Nat.ModEq.pow_totient hco
  unfold Nat.ModEq at htot
  have h1 : (1 : ℕ) % N = 1 := Nat.mod_eq_of_lt hN
  exact ⟨Nat.totient N, Nat.totient_pos.mpr (by omega), by omega⟩

/-- For coprime `a` and `N > 1` the loop of `order_finding` halts within `N`
tests and `order_finding` returns the least positive exponent with
`a^r ≡ 1 (mod N)`. -/
theorem order_terminates (a N : ℕ) (hN : 1 < N) (h : Nat.gcd a N = 1) :
    order_finding_fuel a N N = some (order_finding a N) ∧
      0 < order_finding a N ∧ a ^ (order_finding a N) % N = 1 ∧
      ∀ j, 1 ≤ j → j < order_finding a N → a ^ j % N ≠ 1 := by
  have hex := exists_order a N hN h
  obtain ⟨hr0pos, hr0eq⟩ := Nat.find_spec hex
  have hmin : ∀ j, 1 ≤ j → j < Nat.find hex → a ^ j % N ≠ 1 := by
    intro j h1 h2 hj
    exact Nat.find_min hex h2 ⟨by omega, hj⟩
  have hrlt : Nat.find hex < N := by
    have hle : Nat.find hex ≤ Nat.totient N := by
      apply Nat.find_min'
      have hco : Nat.Coprime a N := h
      have htot := Nat.ModEq.pow_totient hco
      unfold Nat.ModEq at htot
      have h1 : (1 : ℕ) % N = 1 := Nat.mod_eq_of_lt hN
      exact ⟨Nat.totient_pos.mpr (by omega), by omega⟩
    have := Nat.totient_lt N hN
    omega
  have hsome : order_finding_fuel a N N = some (Nat.find hex) :=
    order_finding_fuel_complete a N N (Nat.find hex) hr0pos hr0eq hmin (by omega)
  have hval : order_finding a N = Nat.find hex := by
    rw [order_finding, hsome]
    rfl
  rw [hval]
  exact ⟨hsome, hr0pos, hr0eq, hmin⟩

/-- A common factor of `a` and `N` greater than one rules out any positive
exponent with `a^r % N = 1`, so the loop of `order_finding` spins forever. -/
theorem no_order_of_gcd_gt_one (a N : ℕ) (hg : 1 < Nat.gcd a N) :
    ∀ r, 0 < r → a ^ r % N ≠ 1 := by
  intro r hr hmod
  have hd1 : Nat.gcd a N ∣ a := Nat.gcd_dvd_left a N
  have hd2 : Nat.gcd a N ∣ N := Nat.gcd_dvd_right a N
  have hda : Nat.gcd a N ∣ a ^ r := dvd_pow hd1 (by omega)
  have hq : N * (a ^ r / N) + 1 = a ^ r := by
    have := Nat.div_add_mod (a ^ r) N
    omega
  have hdNq : Nat.gcd a N ∣ N * (a ^ r / N) := Dvd.dvd.mul_right hd2 _
  have hone : Nat.gcd a N ∣ 1 := (Nat.dvd_add_right hdNq).mp (by rw [hq]; exact hda)
  have := Nat.dvd_one.mp hone
  omega

/-- With modulus `1` the loop variable is stuck at `0` and never equals `1`. -/
theorem orderGo_mod_one_none (a : ℕ) : ∀ (fuel i : ℕ), orderGo a 1 fuel i 0 = none := by
  intro fuel
  induction fuel with
  | zero => intro i; rfl
  | succ fuel ih =>
    intro i
    rw [orderGo, if_neg (by omega)]
    have h0 : 0 * a % 1 = 0 := by simp
    rw [h0]
    exact ih (i + 1)

/-! ### The retry loop of `shor_algorithm` -/

/-- Every `return` of the retry-loop body yields a genuine factorisation. -/
theorem shorStep_sound (N a P Q : ℕ) (h : shorStep N a = some (P, Q)) : P * Q = N := by
  rw [shorStep] at h
  split at h
  · simp only [Option.some.injEq, Prod.mk.injEq] at h
    obtain ⟨hP, hQ⟩ := h
    subst hP
    subst hQ
    exact Nat.mul_div_cancel' (Nat.gcd_dvd_right a N)
  · split at h
    · cases h
    · split at h
      · simp only [Option.some.injEq, Prod.mk.injEq] at h
        obtain ⟨hP, hQ⟩ := h
        subst hP
        subst hQ
        apply Nat.mul_div_cancel'
        have hdvd : (↑(Int.gcd ((a : ℤ) ^ (order_finding a N / 2) - 1) (N : ℤ)) : ℤ) ∣ (N : ℤ) :=
          Int.gcd_dvd_right
        exact_mod_cast hdvd
      · cases h

/-- The retry loop returns a factorisation whenever it returns at all. -/
theorem shorLoop_sound (N : ℕ) :
    ∀ (l : List ℕ) (P Q : ℕ), shorLoop N l = some (P, Q) → P * Q = N := by
  intro l
  induction l with
  | nil => intro P Q h; cases h
  | cons a rest ih =>
    intro P Q h
    rw [shorLoop] at h
    cases hs : shorStep N a with
    | some pq =>
      rw [hs] at h
      obtain ⟨P', Q'⟩ := pq
      simp only [Option.some.injEq, Prod.mk.injEq] at h
      obtain ⟨hP, hQ⟩ := h
      subst hP
      subst hQ
      exact shorStep_sound N a P' Q' hs
    | none =>
      rw [hs] at h
      exact ih P Q h

/-- The retry loop runs out of draws exactly when every drawn base falls
through without a `return`. -/
theorem shorLoop_eq_none_iff (N : ℕ) :
    ∀ l : List ℕ, shorLoop N l = none ↔ ∀ a ∈ l, shorStep N a = none := by
  intro l
  induction l with
  | nil => simp [shorLoop]
  | cons a rest ih =>
    rw [shorLoop]
    cases hs : shorStep N a with
    | some pq =>
      constructor
      · intro h; cases h
      · intro hall
        exfalso
        have := hall a (List.mem_cons_self a rest)
        rw [hs] at this
        cases this
    | none =>
      constructor
      · intro h b hb
        rcases List.mem_cons.mp hb with rfl | hb2
        · exact hs
        · exact (ih.mp h) b hb2
      · intro hall
        exact ih.mpr fun b hb => hall b (List.mem_cons_of_mem a hb)

/-! ### Claims -/

/-- C2: for `N ≥ 2` and any sequence of random base choices, whenever
`shor_algorithm N` returns a pair `(P, Q)`, the product `P * Q` equals `N`. -/
theorem spec_c2 (N : ℕ) (rands : List ℕ) (P Q : ℕ) (_hN : 2 ≤ N)
    (h : shor_algorithm N rands = some (P, Q)) : P * Q = N := by
  rw [shor_algorithm] at h
  split at h
  · simp only [Option.some.injEq, Prod.mk.injEq] at h
    obtain ⟨hP, hQ⟩ := h
    subst hP
    subst hQ
    have h2 : 2 ∣ N := Nat.dvd_of_mod_eq_zero (by assumption)
    exact Nat.div_mul_cancel h2
  · split at h
    · simp only [Option.some.injEq, Prod.mk.injEq] at h
      obtain ⟨hP, hQ⟩ := h
      subst hP
      subst hQ
      exact Nat.mul_one N
    · split at h
      · simp only [Option.some.injEq, Prod.mk.injEq] at h
        obtain ⟨hP, hQ⟩ := h
        subst hP
        subst hQ
        have hgt : 1 < find_power_k N := by assumption
        obtain ⟨h2le, _, hpass, _⟩ := find_power_k_spec N (by omega)
        have hdvd : kthRootFloor N (find_power_k N) ∣
            (kthRootFloor N (find_power_k N)) ^ (find_power_k N) :=
          dvd_pow_self _ (by omega)
        rw [hpass] at hdvd
        exact Nat.mul_div_cancel' hdvd
      · exact shorLoop_sound N rands P Q h

/-- C2, witness: for `N = 10013` with the base draw `17`, the algorithm
returns `(17, 589)` and the pair multiplies back to `10013`. -/
theorem spec_c2_witness :
    shor_algorithm 10013 [17] = some (17, 589) ∧ 17 * 589 = 10013 :=
  ⟨by decide, spec_c2 10013 [17] 17 589 (by decide) (by decide)⟩

/-- C3: for `N > 1` and `gcd a N = 1`, the `while` loop of `order_finding`
halts (within `N` tests) and `order_finding a N` is the smallest exponent
`r ≥ 1` with `a^r ≡ 1 (mod N)`. -/
theorem spec_c3 (a N : ℕ) (hN : 1 < N) (h : Nat.gcd a N = 1) :
    order_finding_fuel a N N = some (order_finding a N) ∧
      1 ≤ order_finding a N ∧ a ^ (order_finding a N) % N = 1 ∧
      ∀ j, 1 ≤ j → j < order_finding a N → a ^ j % N ≠ 1 :=
  order_terminates a N hN h

/-- C3, witness: `order_finding 2 15 = 4`, the loop halts there, and
`2^4 % 15 = 1`. -/
theorem spec_c3_witness :
    order_finding_fuel 2 15 15 = some (order_finding 2 15) ∧
      order_finding 2 15 = 4 ∧ 2 ^ order_finding 2 15 % 15 = 1 :=
  ⟨(spec_c3 2 15 (by decide) (by decide)).1, by decide,
    (spec_c3 2 15 (by decide) (by decide)).2.2.1⟩

/-- C4, counterexample: the claim says a prime `N` makes the retry loop of
`shor_algorithm` spin forever with no guard, but `N = 3` is prime and the
algorithm returns `(3, 1)` from the `is_prime` branch without consuming a
single random draw. -/
theorem spec_c4_cex : Nat.Prime 3 ∧ shor_algorithm 3 [] = some (3, 1) :=
  ⟨by norm_num, by decide⟩

/-- C4 (amended): the code does guard against prime inputs: for every prime
`N`, `shor_algorithm` returns before the retry loop, so its result neither
depends on the random draws nor fails to materialise. -/
theorem spec_c4 (N : ℕ) (rands rands2 : List ℕ) (hp : Nat.Prime N) :
    shor_algorithm N rands = shor_algorithm N rands2 ∧
      (shor_algorithm N rands).isSome = true := by
  by_cases he : N % 2 = 0
  · rw [shor_algorithm, shor_algorithm, if_pos he, if_pos he]
    exact ⟨rfl, rfl⟩
  · have hprime : is_prime N = true := (is_prime_iff_prime N).mpr hp
    rw [shor_algorithm, shor_algorithm, if_neg he, if_neg he, if_pos hprime, if_pos hprime]
    exact ⟨rfl, rfl⟩

/-- C4, witness: at the prime `N = 3` the amended statement is inhabited. -/
theorem spec_c4_witness :
    shor_algorithm 3 [2, 2] = shor_algorithm 3 [] ∧
      (shor_algorithm 3 [2, 2]).isSome = true :=
  spec_c4 3 [2, 2] [] (by norm_num)

/-- C5: `is_prime` agrees with trial division: it returns `true` exactly
when `N ≥ 2` and no `d` with `1 < d < N` divides `N`. -/
theorem spec_c5 (N : ℕ) :
    is_prime N = true ↔ 2 ≤ N ∧ ∀ d, 1 < d → d < N → ¬ d ∣ N :=
  is_prime_eq_true_iff N

/-- C5, witness: the characterisation evaluated at `N = 97`. -/
theorem spec_c5_witness : is_prime 97 = true :=
  (spec_c5 97).mpr ((is_prime_eq_true_iff 97).mp (by decide))

/-- C7: for every odd composite `N` — covering every input on which the
retry loop of `shor_algorithm` can run, whatever the floating-point
prime-power check lets through (e.g. `N = 3375`) — the retry loop exhausts
its draws only when every drawn base falls through; some base in
`randint`'s range `[2, N-1]` succeeds (any nontrivial divisor of `N` does),
so the per-draw failure fraction is below one and the probability that the
loop is still running after `n` draws, `(|failing bases| / |range|)^n`,
tends to `0`: termination with probability 1.  The loop body itself
(`gcd`, `order_finding`) involves no floating point. -/
theorem spec_c7 (N : ℕ) (_hodd : N % 2 = 1)
    (hcomp : ∃ d, 1 < d ∧ d < N ∧ d ∣ N) :
    (∀ rands, shorLoop N rands = none ↔ ∀ a ∈ rands, shorStep N a = none) ∧
      (shorFail N).card < (Finset.Icc 2 (N - 1)).card ∧
      Filter.Tendsto
        (fun n => (((shorFail N).card : ℝ) / ((Finset.Icc 2 (N - 1)).card : ℝ)) ^ n)
        Filter.atTop (nhds 0) := by
  obtain ⟨d, hd1, hdN, hdvd⟩ := hcomp
  have hdmem : d ∈ Finset.Icc 2 (N - 1) := Finset.mem_Icc.mpr ⟨by omega, by omega⟩
  have hdstep : ¬ shorStep N d = none := by
    have hgcd : Nat.gcd d N = d := Nat.gcd_eq_left hdvd
    rw [shorStep, if_pos (by rw [hgcd]; omega)]
    intro hcontra
    cases hcontra
  have hss : shorFail N ⊂ Finset.Icc 2 (N - 1) := by
    rw [shorFail]
    exact Finset.filter_ssubset.mpr ⟨d, hdmem, hdstep⟩
  have hcard : (shorFail N).card < (Finset.Icc 2 (N - 1)).card := Finset.card_lt_card hss
  refine ⟨fun rands => shorLoop_eq_none_iff N rands, hcard, ?_⟩
  have htpos : 0 < (Finset.Icc 2 (N - 1)).card := Finset.card_pos.mpr ⟨d, hdmem⟩
  have hq0 : (0 : ℝ) ≤ ((shorFail N).card : ℝ) / ((Finset.Icc 2 (N - 1)).card : ℝ) :=
    div_nonneg (Nat.cast_nonneg _) (Nat.cast_nonneg _)
  have hq1 : ((shorFail N).card : ℝ) / ((Finset.Icc 2 (N - 1)).card : ℝ) < 1 := by
    rw [div_lt_one (by exact_mod_cast htpos)]
    exact_mod_cast hcard
  exact tendsto_pow_atTop_nhds_zero_of_lt_one hq0 hq1

/-- C7, witness: the hypotheses are inhabited at `N = 3375 = 15^3`, an odd
composite non-prime-power on which the real program's retry loop runs
(its float root check misses the cube); fewer bases fail than exist. -/
theorem spec_c7_witness : (shorFail 3375).card < (Finset.Icc 2 (3375 - 1)).card :=
  (spec_c7 3375 (by decide) ⟨3, by decide, by decide, by decide⟩).2.1

/-- C8: for every odd prime `N`, `shor_algorithm N` returns `(N, 1)`
regardless of the random draws (so the pair can contain `1`), and for
`N = 2` it returns `(1, 2)` via the even branch. -/
theorem spec_c8 :
    (∀ (N : ℕ) (rands : List ℕ), Nat.Prime N → N % 2 = 1 →
        shor_algorithm N rands = some (N, 1)) ∧
      ∀ rands : List ℕ, shor_algorithm 2 rands = some (1, 2) := by
  constructor
  · intro N rands hp hodd
    have hprime : is_prime N = true := (is_prime_iff_prime N).mpr hp
    rw [shor_algorithm, if_neg (by omega), if_pos hprime]
  · intro rands
    rfl

/-- C8, witness: instances at the odd prime `5` and at `2`. -/
theorem spec_c8_witness :
    shor_algorithm 5 [] = some (5, 1) ∧ shor_algorithm 2 [] = some (1, 2) :=
  ⟨spec_c8.1 5 [] (by norm_num) (by decide), spec_c8.2 []⟩

/-- C9: in a retry-loop iteration with `gcd a N = 1`, an even order makes
the iteration fall through (`continue`); every `return` from the gcd branch
happens with an odd order, with candidate factor
`gcd(a^(r/2) - 1, N)` where `r/2 = (r-1)/2` by oddness. -/
theorem spec_c9 (N a : ℕ) (h : Nat.gcd a N = 1) :
    (order_finding a N % 2 = 0 → shorStep N a = none) ∧
      (∀ P Q, shorStep N a = some (P, Q) →
        order_finding a N % 2 = 1 ∧
          P = Int.gcd ((a : ℤ) ^ (order_finding a N / 2) - 1) (N : ℤ)) ∧
      (order_finding a N % 2 = 1 →
        order_finding a N / 2 = (order_finding a N - 1) / 2) := by
  refine ⟨?_, ?_, ?_⟩
  · intro heven
    rw [shorStep, if_neg (by omega), if_pos heven]
  · intro P Q hPQ
    rw [shorStep, if_neg (by omega)] at hPQ
    split at hPQ
    · cases hPQ
    · split at hPQ
      · simp only [Option.some.injEq, Prod.mk.injEq] at hPQ
        exact ⟨by omega, hPQ.1.symm⟩
      · cases hPQ
  · intro hoddr
    omega

/-- C9, witness: at `N = 15`, `a = 2` the order is `4`, even, and the
iteration falls through. -/
theorem spec_c9_witness : Nat.gcd 2 15 = 1 ∧ shorStep 15 2 = none :=
  ⟨by decide, (spec_c9 15 2 (by decide)).1 (by decide)⟩

/-- C10: the loop of `order_finding` halts (for some fuel) exactly when some
positive power of `a` is `1` modulo `N`; it never halts when `N > 1` and
`gcd a N > 1`, nor when `N = 1`; and a retry-loop iteration whose
`gcd(a, N) != 1` check fires returns the gcd factorisation at once, so
`order_finding` is reached only with `gcd a N = 1`. -/
theorem spec_c10 (a N : ℕ) :
    ((∃ fuel r, order_finding_fuel a N fuel = some r) ↔ ∃ r, 0 < r ∧ a ^ r % N = 1) ∧
      (1 < N → 1 < Nat.gcd a N → ∀ fuel, order_finding_fuel a N fuel = none) ∧
      (∀ fuel, order_finding_fuel a 1 fuel = none) ∧
      (Nat.gcd a N ≠ 1 → shorStep N a = some (Nat.gcd a N, N / Nat.gcd a N)) := by
  refine ⟨⟨?_, ?_⟩, ?_, ?_, ?_⟩
  · rintro ⟨fuel, r, h⟩
    obtain ⟨h1, h2, _⟩ := order_finding_fuel_sound a N fuel r h
    exact ⟨r, by omega, h2⟩
  · rintro ⟨r, hr, hmod⟩
    have hex : ∃ s, 0 < s ∧ a ^ s % N = 1 := ⟨r, hr, hmod⟩
    obtain ⟨hpos, heq⟩ := Nat.find_spec hex
    refine ⟨Nat.find hex, Nat.find hex, ?_⟩
    apply order_finding_fuel_complete a N _ _ hpos heq _ le_rfl
    intro j h1 h2 hj
    exact Nat.find_min hex h2 ⟨by omega, hj⟩
  · intro hN hg fuel
    cases h : order_finding_fuel a N fuel with
    | none => rfl
    | some r =>
      exfalso
      obtain ⟨h1, h2, _⟩ := order_finding_fuel_sound a N fuel r h
      exact no_order_of_gcd_gt_one a N hg r (by omega) h2
  · intro fuel
    rw [order_finding_fuel, Nat.mod_one]
    exact orderGo_mod_one_none a fuel 1
  · intro hg
    rw [shorStep, if_pos hg]

/-- C10, witness: with `a = 3`, `N = 6` (common factor 3) the loop makes no
progress on any fuel, and the iteration at base `4` returns the gcd pair. -/
theorem spec_c10_witness :
    order_finding_fuel 3 6 10 = none ∧ shorStep 6 4 = some (2, 3) :=
  ⟨(spec_c10 3 6).2.1 (by decide) (by decide) 10, by
    rw [(spec_c10 4 6).2.2.2 (by decide)]
    decide⟩

